import Mathlib

/-!
Verification development for the concurrent stream-processing pipelines of
the repository: the spam-classification pipeline (`2_async_2023/spammer.go`),
the hash-derivation pipeline, and the crawler's gated site checker.  Pure
stage logic is embedded as Lean functions; concurrent stage behaviour is
embedded as small-step machines whose schedules range over all interleavings.
-/

namespace Vasserman

/-! ## Data model of the spam pipeline (`src/2_async_2023/spammer.go`) -/

/-- `User` record forwarded by `SelectUsers`; identified by a numeric `ID`. -/
structure User where
  ID : Nat
  Email : String
deriving DecidableEq, Repr

/-- Message identifier produced by `GetMessages`. -/
abbrev MsgID := Nat

/-- Classification record produced by `CheckSpam`; `ID` is the `MsgID`. -/
structure MsgData where
  ID : Nat
  HasSpam : Bool
deriving DecidableEq, Repr

/-- The `sort.Slice` comparator of `CombineResults` (spammer.go lines
121–126): spam-first, ties broken by ascending `ID`. -/
def msgLess (a b : MsgData) : Bool :=
  if a.HasSpam ≠ b.HasSpam then a.HasSpam else decide (a.ID < b.ID)

/-- The non-strict order induced by `msgLess`; `sort.Slice` with comparator
`less` produces a list that is non-decreasing for `fun a b => ¬ less b a`. -/
def msgLe (a b : MsgData) : Prop := msgLess b a = false

instance : DecidableRel msgLe := fun a b =>
  inferInstanceAs (Decidable (msgLess b a = false))

instance : IsTotal MsgData msgLe := by
  constructor
  intro a b
  unfold msgLe msgLess
  rcases a with ⟨aid, asp⟩
  rcases b with ⟨bid, bsp⟩
  cases asp <;> cases bsp <;> simp <;> omega

instance : IsTrans MsgData msgLe := by
  constructor
  intro a b c hab hbc
  unfold msgLe msgLess at *
  rcases a with ⟨aid, asp⟩
  rcases b with ⟨bid, bsp⟩
  rcases c with ⟨cid, csp⟩
  cases asp <;> cases bsp <;> cases csp <;> simp_all <;> omega

instance : IsAntisymm MsgData msgLe := by
  constructor
  intro a b hab hba
  unfold msgLe msgLess at *
  rcases a with ⟨aid, asp⟩
  rcases b with ⟨bid, bsp⟩
  cases asp <;> cases bsp <;> simp_all <;> omega

/-- `fmt.Sprintf("%t %d", result.HasSpam, result.ID)` (spammer.go line 128). -/
def formatMsgData (r : MsgData) : String :=
  (if r.HasSpam then "true" else "false") ++ " " ++ toString r.ID

/-- `CombineResults` of the spam pipeline (spammer.go lines 116–130): drain
the inbound stream into `results` (given here as the arrival-order list),
sort by the spam-first/ascending-id comparator, emit one formatted string per
record in sorted order. -/
def combineResultsSpam (arrivals : List MsgData) : List String :=
  (List.insertionSort msgLe arrivals).map formatMsgData

/-- The record order in which the spam sink emits. -/
def combineResultsSpamOrder (arrivals : List MsgData) : List MsgData :=
  List.insertionSort msgLe arrivals

/-- Lexicographic "less" on character lists, embedding Go's built-in string
`<` that `sort.Strings` sorts by (byte-wise lexicographic; on the ASCII
inputs at hand, identical to code-point order). -/
def strLessAux : List Char → List Char → Bool
  | [], [] => false
  | [], _ :: _ => true
  | _ :: _, [] => false
  | a :: as, b :: bs =>
    if a.toNat < b.toNat then true
    else if b.toNat < a.toNat then false
    else strLessAux as bs

/-- Go's string `<` lifted to `String`. -/
def strLess (a b : String) : Bool := strLessAux a.data b.data

/-- The non-strict order that `sort.Strings` sorts into. -/
def strLe (a b : String) : Prop := strLess b a = false

instance : DecidableRel strLe := fun a b =>
  inferInstanceAs (Decidable (strLess b a = false))

theorem strLessAux_total : ∀ as bs : List Char,
    strLessAux as bs = false ∨ strLessAux bs as = false := by
  intro as
  induction as with
  | nil => intro bs; cases bs <;> simp [strLessAux]
  | cons a as ih =>
    intro bs
    cases bs with
    | nil => simp [strLessAux]
    | cons b bs =>
      simp only [strLessAux]
      rcases Nat.lt_trichotomy a.toNat b.toNat with h | h | h
      · right; simp [h, Nat.lt_asymm h]
      · rcases ih bs with h2 | h2
        · left; simp [h, Nat.lt_irrefl, h2]
        · right; simp [h.symm, Nat.lt_irrefl, h2]
      · left; simp [h, Nat.lt_asymm h]

theorem strLessAux_trans : ∀ as bs cs : List Char,
    strLessAux bs as = false → strLessAux cs bs = false → strLessAux cs as = false := by
  intro as
  induction as with
  | nil =>
    intro bs cs h1 h2
    cases bs <;> cases cs <;> simp_all [strLessAux]
  | cons a as ih =>
    intro bs cs h1 h2
    cases bs with
    | nil => simp [strLessAux] at h1
    | cons b bs =>
      cases cs with
      | nil => simp [strLessAux] at h2
      | cons c cs =>
        simp only [strLessAux] at *
        rcases Nat.lt_trichotomy b.toNat a.toNat with hba | hba | hba <;>
          rcases Nat.lt_trichotomy c.toNat b.toNat with hcb | hcb | hcb <;>
            simp_all [Nat.lt_irrefl] <;>
              first
                | omega
                | (have hca : ¬ c.toNat < a.toNat := by omega
                   have hac : ¬ a.toNat < c.toNat := by omega
                   simp_all
                   exact ih bs cs h1 h2)

theorem strLessAux_antisymm : ∀ as bs : List Char,
    strLessAux bs as = false → strLessAux as bs = false → as = bs := by
  intro as
  induction as with
  | nil => intro bs h1 _; cases bs <;> simp_all [strLessAux]
  | cons a as ih =>
    intro bs h1 h2
    cases bs with
    | nil => simp [strLessAux] at h1
    | cons b bs =>
      simp only [strLessAux] at h1 h2
      rcases Nat.lt_trichotomy a.toNat b.toNat with h | h | h
      · simp [h] at h2
      · have hab : a = b := Char.eq_of_val_eq (UInt32.ext h)
        subst hab
        simp [Nat.lt_irrefl] at h1 h2
        rw [ih bs h1 h2]
      · simp [h, Nat.lt_asymm h] at h1

instance : IsTotal String strLe := by
  constructor
  intro a b
  unfold strLe strLess
  exact strLessAux_total b.data a.data

instance : IsTrans String strLe := by
  constructor
  intro a b c hab hbc
  unfold strLe strLess at *
  exact strLessAux_trans a.data b.data c.data hab hbc

instance : IsAntisymm String strLe := by
  constructor
  intro a b hab hba
  unfold strLe strLess at *
  have : a.data = b.data := strLessAux_antisymm a.data b.data hab hba
  cases a; cases b; simp_all

/-- `CombineResults` of the hash pipeline (part_000 lines 111–122): collect
all inbound strings, `sort.Strings` them ascending, join with `"_"`. -/
def combineResultsHash (arrivals : List String) : String :=
  String.intercalate "_" (List.insertionSort strLe arrivals)

/-- Sorting a list with a total, transitive, antisymmetric order gives the
same result on any permutation of the input. -/
theorem insertionSort_perm_eq {α : Type} (r : α → α → Prop) [DecidableRel r]
    [IsTotal α r] [IsTrans α r] [IsAntisymm α r]
    {l₁ l₂ : List α} (h : l₁.Perm l₂) :
    List.insertionSort r l₁ = List.insertionSort r l₂ :=
  List.eq_of_perm_of_sorted
    ((List.perm_insertionSort r l₁).trans (h.trans (List.perm_insertionSort r l₂).symm))
    (List.sorted_insertionSort r l₁) (List.sorted_insertionSort r l₂)

/-- C1: the sorted sink/combine stage is deterministic: over any arrival
order of the multiset `{"b","a","c"}` the hash sink emits the single string
`"a_b_c"`, and over any arrival order of the records `(spam=true,id=5)`,
`(spam=false,id=2)`, `(spam=true,id=1)` the spam sink emits them in the
order `(true,1)`, `(true,5)`, `(false,2)`. -/
theorem combine_stage_deterministic :
    (∀ l : List String, l.Perm ["b", "a", "c"] → combineResultsHash l = "a_b_c") ∧
    (∀ l : List MsgData, l.Perm [⟨5, true⟩, ⟨2, false⟩, ⟨1, true⟩] →
      combineResultsSpamOrder l = [⟨1, true⟩, ⟨5, true⟩, ⟨2, false⟩] ∧
      combineResultsSpam l = ["true 1", "true 5", "false 2"]) := by
  constructor
  · intro l h
    unfold combineResultsHash
    rw [insertionSort_perm_eq _ h]
    decide
  · intro l h
    unfold combineResultsSpam combineResultsSpamOrder
    rw [insertionSort_perm_eq _ h]
    constructor
    · rfl
    · rfl

/-- Concrete instantiation of `combine_stage_deterministic` at one arrival
order of each input multiset. -/
theorem combine_stage_deterministic_witness :
    combineResultsHash ["c", "a", "b"] = "a_b_c" ∧
    combineResultsSpam [⟨1, true⟩, ⟨5, true⟩, ⟨2, false⟩] = ["true 1", "true 5", "false 2"] :=
  ⟨combine_stage_deterministic.1 ["c", "a", "b"] (by decide),
   (combine_stage_deterministic.2 [⟨1, true⟩, ⟨5, true⟩, ⟨2, false⟩] (by decide)).2⟩

/-! ## C2: deduplication in `SelectUsers` (spammer.go lines 26–48)

Each per-item goroutine first calls `GetUser(email)` outside the lock, then —
under `mu` — checks `processedUsers[user.ID]`, dropping on a hit and
inserting-and-forwarding on a miss.  Because the check-and-mark is
mutex-serialized, every concurrent execution is equivalent to processing the
items in the order in which their goroutines acquire `mu`; the schedule
argument below ranges over all such acquisition orders. -/

/-- The serialized check-and-mark history of `SelectUsers`: for each item
(in mutex-acquisition order) the resolved user and whether it was forwarded
(`true`) or dropped as a duplicate (`false`).  `seen` is the key set of
`processedUsers`. -/
def selectUsersTrace (getUser : String → User) :
    List String → List Nat → List (User × Bool)
  | [], _ => []
  | e :: rest, seen =>
    let u := getUser e
    if u.ID ∈ seen then (u, false) :: selectUsersTrace getUser rest seen
    else (u, true) :: selectUsersTrace getUser rest (u.ID :: seen)

theorem selectUsersTrace_count (getUser : String → User) (k : Nat) :
    ∀ (sched : List String) (seen : List Nat),
      (selectUsersTrace getUser sched seen).countP (fun p => p.1.ID == k && p.2) =
        if k ∈ sched.map (fun e => (getUser e).ID) ∧ k ∉ seen then 1 else 0 := by
  intro sched
  induction sched with
  | nil => intro seen; simp [selectUsersTrace]
  | cons e rest ih =>
    intro seen
    simp only [selectUsersTrace, List.map_cons]
    by_cases hseen : (getUser e).ID ∈ seen
    · rw [if_pos hseen]
      rw [List.countP_cons]
      simp only [Bool.and_false, decide_False]
      rw [ih seen]
      by_cases hk : k = (getUser e).ID
      · subst hk
        simp [hseen]
      · simp only [List.mem_cons]
        by_cases hkr : k ∈ rest.map (fun e => (getUser e).ID) <;>
          simp_all [Ne.symm]
    · rw [if_neg hseen]
      rw [List.countP_cons]
      rw [ih ((getUser e).ID :: seen)]
      by_cases hk : k = (getUser e).ID
      · subst hk
        simp [hseen]
      · simp only [List.mem_cons]
        by_cases hkr : k ∈ rest.map (fun e => (getUser e).ID) <;>
          simp_all [Ne.symm]

/-- C2: deduplicating discipline of `SelectUsers`.  For every resolution
function, every mutex-acquisition order of the concurrently processed items,
and every identity key `k`: the number of items with key `k` that are
forwarded downstream is exactly one when some item resolves to `k`, and zero
otherwise — so duplicates are dropped silently and no key is ever treated as
first-seen twice, regardless of the interleaving. -/
theorem selectUsers_dedup (getUser : String → User) (sched : List String) (k : Nat) :
    (selectUsersTrace getUser sched []).countP (fun p => p.1.ID == k && p.2) =
      if k ∈ sched.map (fun e => (getUser e).ID) then 1 else 0 := by
  rw [selectUsersTrace_count]
  simp

/-! ## C4: batching in `SelectMessages` (spammer.go lines 50–89) -/

/-- The batching loop of `SelectMessages`: `buf` is `userBatch`; a buffer
that reaches length `B` (`GetMessagesMaxUsersBatch`) is dispatched inside
the loop and the buffer restarts empty; a nonempty partial buffer left at
end-of-input is dispatched after the loop.  Returns the dispatched batches
in dispatch order. -/
def selectMessagesBatches (B : Nat) : List User → List User → List (List User)
  | [], buf => if buf.length > 0 then [buf] else []
  | u :: rest, buf =>
    let buf2 := buf ++ [u]
    if buf2.length = B then buf2 :: selectMessagesBatches B rest []
    else selectMessagesBatches B rest buf2

theorem selectMessagesBatches_join (B : Nat) :
    ∀ (l buf : List User), (selectMessagesBatches B l buf).flatten = buf ++ l := by
  intro l
  induction l with
  | nil =>
    intro buf
    simp only [selectMessagesBatches]
    by_cases h : buf.length > 0
    · simp [h]
    · have hbuf : buf = [] := List.length_eq_zero.mp (by omega)
      subst hbuf
      simp
  | cons u rest ih =>
    intro buf
    simp only [selectMessagesBatches]
    by_cases h : (buf ++ [u]).length = B
    · rw [if_pos h]
      simp [ih]
    · rw [if_neg h]
      rw [ih]
      simp

theorem selectMessagesBatches_count (B : Nat) :
    ∀ (l buf : List User), buf.length < B →
      (selectMessagesBatches B l buf).length = (buf.length + l.length + B - 1) / B := by
  intro l
  induction l with
  | nil =>
    intro buf hlt
    simp only [selectMessagesBatches, List.length_nil, Nat.add_zero]
    by_cases h : buf.length > 0
    · simp only [h, if_true, List.length_cons, List.length_nil]
      rw [Nat.div_eq_of_lt_le] <;> omega
    · simp only [h, if_false, List.length_nil]
      rw [Nat.div_eq_of_lt (by omega)]
  | cons u rest ih =>
    intro buf hlt
    simp only [selectMessagesBatches]
    by_cases h : (buf ++ [u]).length = B
    · simp only [h, if_true, List.length_cons]
      rw [ih [] (by simp; omega)]
      simp only [List.length_nil, List.length_cons]
      simp only [List.length_append, List.length_cons, List.length_nil] at h
      have : buf.length + (rest.length + 1) + B - 1 = (0 + rest.length + B - 1) + B := by
        omega
      rw [this, Nat.add_div_right _ (by omega)]
    · simp only [h, if_false]
      rw [ih (buf ++ [u]) (by simp_all; omega)]
      congr 1
      simp
      omega

theorem mem_dropLast_cons {α : Type} {b x : α} {xs : List α}
    (h : b ∈ (x :: xs).dropLast) : b = x ∨ b ∈ xs.dropLast := by
  cases xs with
  | nil => simp [List.dropLast] at h
  | cons y ys =>
    rw [show (x :: y :: ys).dropLast = x :: (y :: ys).dropLast from rfl] at h
    rcases List.mem_cons.mp h with h | h
    · exact Or.inl h
    · exact Or.inr h

theorem selectMessagesBatches_sizes (B : Nat) :
    ∀ (l buf : List User), buf.length < B →
      ∀ b ∈ (selectMessagesBatches B l buf).dropLast, b.length = B := by
  intro l
  induction l with
  | nil =>
    intro buf _ b hb
    by_cases h : buf.length > 0 <;> simp_all [selectMessagesBatches]
  | cons u rest ih =>
    intro buf hlt b hb
    simp only [selectMessagesBatches] at hb
    by_cases h : (buf ++ [u]).length = B
    · rw [if_pos h] at hb
      rcases mem_dropLast_cons hb with hb | hb
      · rw [hb]; exact h
      · exact ih [] (by simp; omega) b hb
    · rw [if_neg h] at hb
      exact ih (buf ++ [u]) (by simp_all; omega) b hb

/-- C4: batching discipline of `SelectMessages`.  For every finite input of
`T` items and batch size `B > 0`: exactly `⌈T/B⌉ = (T+B-1)/B` batches are
dispatched, every dispatched batch except possibly the last has exactly `B`
items, and the concatenation of the dispatched batches is exactly the input
(no item dropped or duplicated by the batching step). -/
theorem selectMessages_batching (B : Nat) (l : List User) (hB : 0 < B) :
    (selectMessagesBatches B l []).length = (l.length + B - 1) / B ∧
    (∀ b ∈ (selectMessagesBatches B l []).dropLast, b.length = B) ∧
    (selectMessagesBatches B l []).flatten = l := by
  refine ⟨?_, ?_, ?_⟩
  · rw [selectMessagesBatches_count B l [] (by simpa using hB)]
    simp
  · exact selectMessagesBatches_sizes B l [] (by simpa using hB)
  · simpa using selectMessagesBatches_join B l []

/-- Concrete instantiation of `selectMessages_batching`: five users with
batch size two give three batches, the first two of size two. -/
theorem selectMessages_batching_witness :
    0 < 2 ∧
    ((selectMessagesBatches 2 [⟨1, "a"⟩, ⟨2, "b"⟩, ⟨3, "c"⟩, ⟨4, "d"⟩, ⟨5, "e"⟩] []).length
        = (5 + 2 - 1) / 2 ∧
      (∀ b ∈ (selectMessagesBatches 2 [⟨1, "a"⟩, ⟨2, "b"⟩, ⟨3, "c"⟩, ⟨4, "d"⟩, ⟨5, "e"⟩]
          []).dropLast, b.length = 2) ∧
      (selectMessagesBatches 2 [⟨1, "a"⟩, ⟨2, "b"⟩, ⟨3, "c"⟩, ⟨4, "d"⟩, ⟨5, "e"⟩] []).flatten
        = [⟨1, "a"⟩, ⟨2, "b"⟩, ⟨3, "c"⟩, ⟨4, "d"⟩, ⟨5, "e"⟩]) :=
  ⟨by decide,
   selectMessages_batching 2 [⟨1, "a"⟩, ⟨2, "b"⟩, ⟨3, "c"⟩, ⟨4, "d"⟩, ⟨5, "e"⟩] (by decide)⟩

/-! ## C5: fixed-width indexed fan-out in `MultiHash` (part_000 lines 83–109)

For each inbound item `MultiHash` spawns `maxThreads = 6` sub-tasks indexed
`0..5`; sub-task `th` writes `DataSignerCrc32(strconv.Itoa(th) + data)` into
`threadsSlice[th]`; after `wgThreads.Wait()` the slots are joined in index
order with `strings.Join(threadsSlice, "")`.  The external hash is an opaque
parameter `crc32`; the sub-tasks' completion order is an arbitrary
permutation of the indices. -/

/-- The value sub-task `i` writes: `crc32(strconv.Itoa(i) + data)`. -/
def multiHashSlotValue (crc32 : String → String) (data : String) (i : Nat) : String :=
  crc32 (toString i ++ data)

/-- The slot array after the sub-tasks listed in `order` (their completion
order) have each written their result at their own index. -/
def multiHashWrites (crc32 : String → String) (data : String)
    (order : List Nat) (slots : List String) : List String :=
  order.foldl (fun sl i => sl.set i (multiHashSlotValue crc32 data i)) slots

/-- The per-item value `MultiHash` emits: the six slots in index order. -/
def multiHashResult (crc32 : String → String) (data : String) : String :=
  String.join ((List.range 6).map (multiHashSlotValue crc32 data))

theorem multiHashWrites_getElem? (crc32 : String → String) (data : String) :
    ∀ (order : List Nat) (slots : List String) (j : Nat),
      (multiHashWrites crc32 data order slots)[j]? =
        if j ∈ order ∧ j < slots.length then some (multiHashSlotValue crc32 data j)
        else slots[j]? := by
  intro order
  induction order with
  | nil => intro slots j; simp [multiHashWrites]
  | cons i rest ih =>
    intro slots j
    have hstep : multiHashWrites crc32 data (i :: rest) slots =
        multiHashWrites crc32 data rest (slots.set i (multiHashSlotValue crc32 data i)) := rfl
    rw [hstep, ih]
    rw [List.length_set]
    by_cases hjl : j < slots.length
    · by_cases hjr : j ∈ rest
      · simp [hjr, hjl]
      · by_cases hij : i = j
        · subst hij
          simp [hjr, hjl, List.getElem?_set_eq_of_lt _ hjl]
        · have hji : j ≠ i := fun hh => hij hh.symm
          simp [hjr, hjl, hji, List.getElem?_set_ne hij]
    · have hnone : slots[j]? = none := List.getElem?_eq_none_iff.mpr (by omega)
      have hnone2 : (slots.set i (multiHashSlotValue crc32 data i))[j]? = none :=
        List.getElem?_eq_none_iff.mpr (by rw [List.length_set]; omega)
      simp [hjl, hnone, hnone2]

/-- C5: for every opaque hash, every item and every completion order of the
six indexed sub-tasks, the slot array ends up equal to the index-ordered
list of sub-results, so the emitted per-item value is the concatenation
`crc32("0"+data) … crc32("5"+data)` in index order — identical across all
schedules. -/
theorem multiHash_indexed_fanout (crc32 : String → String) (data : String)
    (order : List Nat) (h : order.Perm (List.range 6)) :
    multiHashWrites crc32 data order (List.replicate 6 "") =
      (List.range 6).map (multiHashSlotValue crc32 data) ∧
    String.join (multiHashWrites crc32 data order (List.replicate 6 "")) =
      multiHashResult crc32 data := by
  have harr : multiHashWrites crc32 data order (List.replicate 6 "") =
      (List.range 6).map (multiHashSlotValue crc32 data) := by
    apply List.ext_getElem?
    intro j
    rw [multiHashWrites_getElem?]
    have hmem : j ∈ order ↔ j < 6 := by
      rw [h.mem_iff, List.mem_range]
    by_cases hj : j < 6
    · simp [hmem, hj, List.getElem?_map, List.getElem?_range hj]
    · have hno : j ∉ order := by simp [hmem, hj]
      have h1 : (List.range 6)[j]? = none :=
        List.getElem?_eq_none_iff.mpr (by simp; omega)
      have h2 : (List.replicate 6 (α := String) "")[j]? = none :=
        List.getElem?_eq_none_iff.mpr (by simp; omega)
      simp [hno, hj, List.getElem?_map, h1, h2]
      omega
  exact ⟨harr, by rw [harr]; rfl⟩

/-- Concrete instantiation of `multiHash_indexed_fanout` at one jittered
completion order. -/
theorem multiHash_indexed_fanout_witness :
    ([3, 5, 0, 2, 4, 1].Perm (List.range 6)) ∧
    String.join (multiHashWrites (fun s => "h" ++ s) "x" [3, 5, 0, 2, 4, 1]
        (List.replicate 6 "")) =
      multiHashResult (fun s => "h" ++ s) "x" :=
  ⟨by decide,
   (multiHash_indexed_fanout (fun s => "h" ++ s) "x" [3, 5, 0, 2, 4, 1] (by decide)).2⟩

/-! ## C7: lock/permit scope in `CheckSpam` and `SelectUsers`

The synchronization-relevant actions of one per-item task, in program order,
read off the source.  In `CheckSpam` (spammer.go lines 91–114) the permit
(`done <- struct{}{}`) is taken in the reading loop before the task is
spawned and given back (`<-done`) in the task's deferred function, which
runs when the task returns — after `out <- MsgData{...}`.  In `SelectUsers`
(spammer.go lines 26–48) `GetUser` runs before `mu.Lock()`, but
`mu.Unlock()` is deferred, so it runs when the goroutine returns — after
`out <- user`. -/

inductive SpamAct
  | acquirePermit | callHasSpam | sendMsg | releasePermit
deriving DecidableEq, Repr

/-- Program order of one `CheckSpam` task (success path). -/
def checkSpamTaskActs : List SpamAct :=
  [.acquirePermit, .callHasSpam, .sendMsg, .releasePermit]

inductive UserAct
  | callGetUser | lockMu | checkAndMark | sendUser | unlockMu
deriving DecidableEq, Repr

/-- Program order of one `SelectUsers` task on the forward path. -/
def selectUsersTaskActs : List UserAct :=
  [.callGetUser, .lockMu, .checkAndMark, .sendUser, .unlockMu]

/-- Position of an action in a task's program order. -/
def actIdx {α : Type} [BEq α] (l : List α) (a : α) : Nat := l.indexOf a

/-- C7 as stated is false on the code: it requires the `CheckSpam` permit to
be released immediately after the `HasSpam` call (before the output send)
and the `SelectUsers` mutex to be released before the output send, but in
both tasks the release is deferred and therefore follows the send. -/
theorem permit_lock_scope_counterexample :
    ¬ (actIdx checkSpamTaskActs .releasePermit < actIdx checkSpamTaskActs .sendMsg ∧
       actIdx selectUsersTaskActs .callGetUser < actIdx selectUsersTaskActs .lockMu ∧
       actIdx selectUsersTaskActs .unlockMu < actIdx selectUsersTaskActs .sendUser) := by
  decide

/-- C7 amended: in `CheckSpam` the permit is acquired before the `HasSpam`
call and nothing else is held while blocked on the gate, but it is released
only when the task returns — after the output send; in `SelectUsers` the
mutex is acquired after the external `GetUser` lookup (never across it) and
covers the check-and-mark step, but it too is released only on task return —
after the blocking send of the forwarded item. -/
theorem permit_lock_scope_amended :
    (actIdx checkSpamTaskActs .acquirePermit < actIdx checkSpamTaskActs .callHasSpam ∧
     actIdx checkSpamTaskActs .callHasSpam < actIdx checkSpamTaskActs .sendMsg ∧
     actIdx checkSpamTaskActs .sendMsg < actIdx checkSpamTaskActs .releasePermit) ∧
    (actIdx selectUsersTaskActs .callGetUser < actIdx selectUsersTaskActs .lockMu ∧
     actIdx selectUsersTaskActs .lockMu < actIdx selectUsersTaskActs .checkAndMark ∧
     actIdx selectUsersTaskActs .checkAndMark < actIdx selectUsersTaskActs .sendUser ∧
     actIdx selectUsersTaskActs .sendUser < actIdx selectUsersTaskActs .unlockMu) := by
  decide

/-! ## C3: permit-gate capacity invariant

`CheckSpam` (spammer.go lines 91–114) gates `HasSpam` with a buffered
channel `done` of capacity `HasSpamMaxAsyncRequests`: the loop performs
`done <- struct{}{}` before spawning the task and the task's deferred
function performs `<-done` when it returns.  The 2021 crawler's `CheckSites`
(crawler.go lines 130–203) gates its site-check tasks identically with
`semaphore` of capacity `c.workers`.  Both per-task bodies have the same
shape: acquire, perform the gated external call, publish the result, release.
The machine below runs `n` such tasks under every interleaving (`sched`
picks which task steps next); an acquire succeeds only when fewer than `K`
permits are outstanding, embedding the buffered-channel semantics. -/

inductive GAct
  | acquire | callBegin | callEnd | publish | release
deriving DecidableEq, Repr

/-- Per-task program of a gated task, shared by `CheckSpam` tasks and
`CheckSites` tasks: take a permit, run the gated call (`HasSpam` / the site
check), publish the result (`out <-` / the mutex-guarded write), give the
permit back in the deferred function. -/
def gatedTaskProg : List GAct :=
  [.acquire, .callBegin, .callEnd, .publish, .release]

/-- State of the gated stage: the remaining program of each task, and the
number of outstanding permits in the channel used as a semaphore. -/
structure GateState where
  tasks : List (List GAct)
  permits : Nat
deriving DecidableEq, Repr

/-- A task holds a permit iff it has executed `acquire` but not `release`. -/
def holdsPermit (p : List GAct) : Bool :=
  p.contains .release && !(p.contains .acquire)

/-- A task is inside the gated external call iff it has executed `callBegin`
but not `callEnd`. -/
def inCall (p : List GAct) : Bool := p.head? == some .callEnd

/-- One scheduler step: task `i` executes its next action.  `acquire` blocks
(no state change) while `K` permits are outstanding. -/
def gateStep (K : Nat) (s : GateState) (i : Nat) : GateState :=
  match s.tasks[i]? with
  | some (GAct.acquire :: rest) =>
    if s.permits < K then ⟨s.tasks.set i rest, s.permits + 1⟩ else s
  | some (GAct.release :: rest) => ⟨s.tasks.set i rest, s.permits - 1⟩
  | some (GAct.callBegin :: rest) => ⟨s.tasks.set i rest, s.permits⟩
  | some (GAct.callEnd :: rest) => ⟨s.tasks.set i rest, s.permits⟩
  | some (GAct.publish :: rest) => ⟨s.tasks.set i rest, s.permits⟩
  | _ => s

/-- Run the gated stage under an arbitrary interleaving. -/
def gateRun (K : Nat) (s : GateState) (sched : List Nat) : GateState :=
  sched.foldl (gateStep K) s

/-- Initial state: `n` tasks, no permit outstanding. -/
def gateInit (n : Nat) : GateState := ⟨List.replicate n gatedTaskProg, 0⟩

/-- Number of tasks currently inside the gated external call. -/
def inCallCount (s : GateState) : Nat := s.tasks.countP inCall

/-- Number of tasks currently holding a permit. -/
def holdersCount (s : GateState) : Nat := s.tasks.countP holdsPermit

theorem countP_set_eq {α : Type} (p : α → Bool) :
    ∀ (l : List α) (i : Nat) (x y : α), l[i]? = some y →
      (l.set i x).countP p + (if p y then 1 else 0) =
        l.countP p + (if p x then 1 else 0) := by
  intro l
  induction l with
  | nil => intro i x y h; simp at h
  | cons a as ih =>
    intro i x y h
    cases i with
    | zero =>
      simp only [List.getElem?_cons_zero, Option.some_inj] at h
      subst h
      simp only [List.set_cons_zero, List.countP_cons]
      omega
    | succ i =>
      simp only [List.getElem?_cons_succ] at h
      simp only [List.set_cons_succ, List.countP_cons]
      have := ih i x y h
      omega

/-- The machine's invariant: every task's remaining program is a suffix of
the task body, the outstanding permit count is exactly the number of
permit-holding tasks, and it never exceeds the capacity. -/
def GateInv (K : Nat) (s : GateState) : Prop :=
  (∀ p ∈ s.tasks, p ∈ gatedTaskProg.tails) ∧
  holdersCount s = s.permits ∧ s.permits ≤ K

theorem gateInv_init (K n : Nat) : GateInv K (gateInit n) := by
  refine ⟨?_, ?_, ?_⟩
  · intro p hp
    rw [List.eq_of_mem_replicate hp]
    decide
  · simp only [holdersCount, gateInit]
    rw [List.countP_eq_zero.mpr]
    intro p hp
    rw [List.eq_of_mem_replicate hp]
    decide
  · exact Nat.zero_le K

/-- The concrete suffixes of the gated task body. -/
theorem gatedTaskProg_tails : gatedTaskProg.tails =
    [[GAct.acquire, .callBegin, .callEnd, .publish, .release],
     [.callBegin, .callEnd, .publish, .release],
     [.callEnd, .publish, .release],
     [.publish, .release],
     [.release], []] := by decide

theorem gateInv_step (K : Nat) (s : GateState) (i : Nat)
    (h : GateInv K s) : GateInv K (gateStep K s i) := by
  obtain ⟨htails, hcount, hcap⟩ := h
  cases hget : s.tasks[i]? with
  | none =>
    have hstep : gateStep K s i = s := by unfold gateStep; rw [hget]
    rw [hstep]
    exact ⟨htails, hcount, hcap⟩
  | some p =>
    cases p with
    | nil =>
      have hstep : gateStep K s i = s := by unfold gateStep; rw [hget]
      rw [hstep]
      exact ⟨htails, hcount, hcap⟩
    | cons a rest =>
      have hmem : (a :: rest) ∈ s.tasks := by
        obtain ⟨hlt, hgrab⟩ := List.getElem?_eq_some.mp hget
        exact hgrab ▸ List.getElem_mem hlt
      have hsuffix : (a :: rest) ∈ gatedTaskProg.tails := htails _ hmem
      have htails' : ∀ q ∈ s.tasks.set i rest, q ∈ gatedTaskProg.tails := by
        intro q hq
        rcases List.mem_or_eq_of_mem_set hq with hq | hq
        · exact htails q hq
        · rw [hq]
          exact (List.mem_tails _ _).mpr
            ((List.suffix_cons a rest).trans ((List.mem_tails _ _).mp hsuffix))
      have hcnt := countP_set_eq holdsPermit s.tasks i rest (a :: rest) hget
      rw [gatedTaskProg_tails] at hsuffix
      simp only [List.mem_cons, List.not_mem_nil, or_false] at hsuffix
      cases a with
      | acquire =>
        have hrest : rest = [.callBegin, .callEnd, .publish, .release] := by
          rcases hsuffix with h | h | h | h | h | h <;> simp_all
        subst hrest
        have hstep : gateStep K s i =
            if s.permits < K
            then ⟨s.tasks.set i [.callBegin, .callEnd, .publish, .release], s.permits + 1⟩
            else s := by
          unfold gateStep; rw [hget]
        rw [hstep]
        by_cases hK : s.permits < K
        · rw [if_pos hK]
          refine ⟨htails', ?_, by show s.permits + 1 ≤ K; omega⟩
          show (s.tasks.set i [.callBegin, .callEnd, .publish, .release]).countP holdsPermit
              = s.permits + 1
          have e1 : holdsPermit (GAct.acquire ::
              [GAct.callBegin, .callEnd, .publish, .release]) = false := by decide
          have e2 : holdsPermit [GAct.callBegin, .callEnd, .publish, .release] = true := by
            decide
          simp [e1, e2] at hcnt
          simp only [holdersCount] at hcount
          omega
        · rw [if_neg hK]
          exact ⟨htails, hcount, hcap⟩
      | callBegin =>
        have hstep : gateStep K s i = ⟨s.tasks.set i rest, s.permits⟩ := by
          unfold gateStep; rw [hget]
        rw [hstep]
        refine ⟨htails', ?_, hcap⟩
        show (s.tasks.set i rest).countP holdsPermit = s.permits
        have hsame : holdsPermit (GAct.callBegin :: rest) = holdsPermit rest := by
          simp [holdsPermit, List.contains_cons]
        rw [hsame] at hcnt
        simp only [holdersCount] at hcount
        omega
      | callEnd =>
        have hstep : gateStep K s i = ⟨s.tasks.set i rest, s.permits⟩ := by
          unfold gateStep; rw [hget]
        rw [hstep]
        refine ⟨htails', ?_, hcap⟩
        show (s.tasks.set i rest).countP holdsPermit = s.permits
        have hsame : holdsPermit (GAct.callEnd :: rest) = holdsPermit rest := by
          simp [holdsPermit, List.contains_cons]
        rw [hsame] at hcnt
        simp only [holdersCount] at hcount
        omega
      | publish =>
        have hstep : gateStep K s i = ⟨s.tasks.set i rest, s.permits⟩ := by
          unfold gateStep; rw [hget]
        rw [hstep]
        refine ⟨htails', ?_, hcap⟩
        show (s.tasks.set i rest).countP holdsPermit = s.permits
        have hsame : holdsPermit (GAct.publish :: rest) = holdsPermit rest := by
          simp [holdsPermit, List.contains_cons]
        rw [hsame] at hcnt
        simp only [holdersCount] at hcount
        omega
      | release =>
        have hrest : rest = [] := by
          rcases hsuffix with h | h | h | h | h | h <;> simp_all
        subst hrest
        have hstep : gateStep K s i = ⟨s.tasks.set i [], s.permits - 1⟩ := by
          unfold gateStep; rw [hget]
        rw [hstep]
        have hpos : 0 < s.tasks.countP holdsPermit :=
          List.countP_pos_iff.mpr ⟨[GAct.release], hmem, by decide⟩
        refine ⟨htails', ?_, by show s.permits - 1 ≤ K; omega⟩
        show (s.tasks.set i []).countP holdsPermit = s.permits - 1
        have e1 : holdsPermit [GAct.release] = true := by decide
        have e2 : holdsPermit ([] : List GAct) = false := by decide
        simp [e1, e2] at hcnt
        simp only [holdersCount] at hcount
        omega

theorem gateInv_run (K : Nat) (sched : List Nat) (s : GateState)
    (h : GateInv K s) : GateInv K (gateRun K s sched) := by
  induction sched generalizing s with
  | nil => exact h
  | cons i rest ih => exact ih _ (gateInv_step K s i h)

/-- C3: permit-gate capacity.  In every state reachable under any
interleaving of any number of gated tasks, the number of tasks currently
inside the gated external call (`HasSpam` in `CheckSpam`, the site check in
`CheckSites`) never exceeds the gate capacity `K` (`HasSpamMaxAsyncRequests`
resp. `c.workers`); and with `K = 1` and ten submitted tasks the in-flight
count `1` is actually reached. -/
theorem gate_capacity_invariant :
    (∀ (K n : Nat) (sched : List Nat),
        inCallCount (gateRun K (gateInit n) sched) ≤ K) ∧
    (∃ sched : List Nat, inCallCount (gateRun 1 (gateInit 10) sched) = 1) := by
  constructor
  · intro K n sched
    obtain ⟨htails, hcount, hcap⟩ := gateInv_run K sched _ (gateInv_init K n)
    calc inCallCount (gateRun K (gateInit n) sched)
        ≤ holdersCount (gateRun K (gateInit n) sched) := by
          apply List.countP_mono_left
          intro p hp hic
          have hmem := htails p hp
          rw [gatedTaskProg_tails] at hmem
          simp only [List.mem_cons, List.not_mem_nil, or_false] at hmem
          revert hic
          rcases hmem with h | h | h | h | h | h <;> subst h <;> decide
      _ = (gateRun K (gateInit n) sched).permits := hcount
      _ ≤ K := hcap
  · exact ⟨[0, 0], by decide⟩

/-! ## C6: stage-completion signaling

`RunPipeline` (spammer.go lines 10–24) and `ExecutePipeline` (part_000 lines
33–47) run each stage body in a goroutine whose wrapper does
`defer wg.Done(); defer close(out); body(in, out)` — so `close(out)` runs
exactly once, after the body returns, and the executor's `wg.Wait()` passes
only after every wrapper has closed its stream.  Every fan-out stage body
(`SelectUsers`, `SelectMessages`, `CheckSpam`, `SingleHash`, `MultiHash`)
ends with `wg.Wait()` over the tasks it spawned, each of which performs its
output sends before its deferred `wg.Done()`.  The machine below abstracts a
task to its number of not-yet-performed output sends and runs the stages,
their tasks, the deferred closes and the executor return under every
interleaving. -/

/-- One stage under the executor wrapper: per spawned task the number of
results it has not yet sent, whether the stage body has returned (its
`wg.Wait` passed), and how many times the wrapper's `close(out)` has run. -/
structure StageState where
  tasks : List Nat
  ret : Bool
  closes : Nat
deriving DecidableEq, Repr

/-- State of an executor run: the stages and whether the executor's own
`wg.Wait()` has returned. -/
structure PipeState where
  stages : List StageState
  execReturned : Bool
deriving DecidableEq, Repr

/-- Scheduler actions: a task of a stage performs one output send; a stage
body passes its `wg.Wait` and returns; the wrapper's deferred `close(out)`
runs; the executor's `wg.Wait` passes. -/
inductive PStep
  | taskEmit (s i : Nat)
  | stageReturn (s : Nat)
  | stageClose (s : Nat)
  | execReturn
deriving DecidableEq, Repr

/-- Task `i` of a stage performs one of its remaining output sends. -/
def stageEmit (st : StageState) (i : Nat) : StageState :=
  match st.tasks[i]? with
  | some (n + 1) => ⟨st.tasks.set i n, st.ret, st.closes⟩
  | _ => st

/-- One scheduler step.  The guards embed the code's synchronization: a
stage body returns only when every spawned task has finished its sends
(`wg.Wait` in the stage body), `close(out)` runs only after the body has
returned and only once (one deferred close per wrapper), and the executor
returns only once every wrapper has run its close (wrapper order:
`close(out)` before `wg.Done()`). -/
def pstep (pi : PipeState) (a : PStep) : PipeState :=
  match a with
  | .taskEmit s i =>
    match pi.stages[s]? with
    | some st => ⟨pi.stages.set s (stageEmit st i), pi.execReturned⟩
    | none => pi
  | .stageReturn s =>
    match pi.stages[s]? with
    | some st =>
      if st.tasks.all (· == 0) && !st.ret then
        ⟨pi.stages.set s ⟨st.tasks, true, st.closes⟩, pi.execReturned⟩
      else pi
    | none => pi
  | .stageClose s =>
    match pi.stages[s]? with
    | some st =>
      if st.ret && st.closes == 0 then
        ⟨pi.stages.set s ⟨st.tasks, st.ret, 1⟩, pi.execReturned⟩
      else pi
    | none => pi
  | .execReturn =>
    if pi.stages.all (fun st => st.closes == 1) then ⟨pi.stages, true⟩ else pi

/-- Run the executor machine under an arbitrary interleaving. -/
def pipeRun (pi : PipeState) (sched : List PStep) : PipeState :=
  sched.foldl pstep pi

/-- Initial state: one stage per entry of `counts`, each with the given
per-task send counts, nothing returned or closed. -/
def pipeInit (counts : List (List Nat)) : PipeState :=
  ⟨counts.map (fun ts => ⟨ts, false, 0⟩), false⟩

/-- Machine invariant: each stream is closed at most once and only after
its stage body returned, a returned stage has no task with an unsent
result, and the executor has returned only if every stage closed. -/
def PipeInv (pi : PipeState) : Prop :=
  (∀ st ∈ pi.stages, st.closes ≤ 1 ∧ (st.closes = 1 → st.ret = true) ∧
    (st.ret = true → ∀ t ∈ st.tasks, t = 0)) ∧
  (pi.execReturned = true → ∀ st ∈ pi.stages, st.closes = 1)

theorem pipeInv_init (counts : List (List Nat)) : PipeInv (pipeInit counts) := by
  constructor
  · intro st hst
    obtain ⟨ts, _, hts⟩ := List.mem_map.mp hst
    rw [← hts]
    exact ⟨by simp, by simp, by simp⟩
  · intro h
    simp [pipeInit] at h

theorem pipeInv_step (pi : PipeState) (a : PStep) (h : PipeInv pi) :
    PipeInv (pstep pi a) := by
  obtain ⟨hst, hexec⟩ := h
  cases a with
  | taskEmit s i =>
    cases hget : pi.stages[s]? with
    | none =>
      have hstep : pstep pi (.taskEmit s i) = pi := by simp only [pstep]; rw [hget]
      rw [hstep]; exact ⟨hst, hexec⟩
    | some st =>
      have hmem : st ∈ pi.stages := by
        obtain ⟨hlt, hgrab⟩ := List.getElem?_eq_some.mp hget
        exact hgrab ▸ List.getElem_mem hlt
      have hstep : pstep pi (.taskEmit s i) =
          ⟨pi.stages.set s (stageEmit st i), pi.execReturned⟩ := by
        simp only [pstep]; rw [hget]
      rw [hstep]
      have hemit : (stageEmit st i).ret = st.ret ∧ (stageEmit st i).closes = st.closes ∧
          ((stageEmit st i).ret = true → ∀ t ∈ (stageEmit st i).tasks, t = 0) := by
        unfold stageEmit
        cases htget : st.tasks[i]? with
        | none => exact ⟨rfl, rfl, (hst st hmem).2.2⟩
        | some m =>
          cases m with
          | zero => exact ⟨rfl, rfl, (hst st hmem).2.2⟩
          | succ n =>
            refine ⟨rfl, rfl, ?_⟩
            intro hret
            exfalso
            have hinm : (n + 1) ∈ st.tasks := by
              obtain ⟨hlt, hgrab⟩ := List.getElem?_eq_some.mp htget
              exact hgrab ▸ List.getElem_mem hlt
            have := (hst st hmem).2.2 hret (n + 1) hinm
            omega
      constructor
      · intro st' hst'
        rcases List.mem_or_eq_of_mem_set hst' with hst' | hst'
        · exact hst st' hst'
        · subst hst'
          obtain ⟨hr, hc, hz⟩ := hemit
          obtain ⟨h1, h2, _⟩ := hst st hmem
          exact ⟨hc ▸ h1, fun hcc => hr ▸ h2 (hc ▸ hcc), hz⟩
      · intro hret st' hst'
        rcases List.mem_or_eq_of_mem_set hst' with hst' | hst'
        · exact hexec hret st' hst'
        · subst hst'
          exact hemit.2.1 ▸ hexec hret st hmem
  | stageReturn s =>
    cases hget : pi.stages[s]? with
    | none =>
      have hstep : pstep pi (.stageReturn s) = pi := by simp only [pstep]; rw [hget]
      rw [hstep]; exact ⟨hst, hexec⟩
    | some st =>
      have hmem : st ∈ pi.stages := by
        obtain ⟨hlt, hgrab⟩ := List.getElem?_eq_some.mp hget
        exact hgrab ▸ List.getElem_mem hlt
      have hstep : pstep pi (.stageReturn s) =
          if st.tasks.all (· == 0) && !st.ret then
            ⟨pi.stages.set s ⟨st.tasks, true, st.closes⟩, pi.execReturned⟩
          else pi := by
        simp only [pstep]; rw [hget]
      rw [hstep]
      by_cases hg : st.tasks.all (· == 0) && !st.ret
      · rw [if_pos hg]
        have hall : ∀ t ∈ st.tasks, t = 0 := by
          intro t ht
          have := (List.all_eq_true.mp (Bool.and_elim_left hg)) t ht
          simpa using this
        constructor
        · intro st' hst'
          rcases List.mem_or_eq_of_mem_set hst' with hst' | hst'
          · exact hst st' hst'
          · subst hst'
            exact ⟨(hst st hmem).1, fun _ => rfl, fun _ => hall⟩
        · intro hret st' hst'
          rcases List.mem_or_eq_of_mem_set hst' with hst' | hst'
          · exact hexec hret st' hst'
          · subst hst'
            exact hexec hret st hmem
      · rw [if_neg hg]
        exact ⟨hst, hexec⟩
  | stageClose s =>
    cases hget : pi.stages[s]? with
    | none =>
      have hstep : pstep pi (.stageClose s) = pi := by simp only [pstep]; rw [hget]
      rw [hstep]; exact ⟨hst, hexec⟩
    | some st =>
      have hmem : st ∈ pi.stages := by
        obtain ⟨hlt, hgrab⟩ := List.getElem?_eq_some.mp hget
        exact hgrab ▸ List.getElem_mem hlt
      have hstep : pstep pi (.stageClose s) =
          if st.ret && st.closes == 0 then
            ⟨pi.stages.set s ⟨st.tasks, st.ret, 1⟩, pi.execReturned⟩
          else pi := by
        simp only [pstep]; rw [hget]
      rw [hstep]
      by_cases hg : st.ret && st.closes == 0
      · rw [if_pos hg]
        have hret : st.ret = true := Bool.and_elim_left hg
        constructor
        · intro st' hst'
          rcases List.mem_or_eq_of_mem_set hst' with hst' | hst'
          · exact hst st' hst'
          · subst hst'
            exact ⟨by simp, fun _ => hret, fun _ => (hst st hmem).2.2 hret⟩
        · intro hexr st' hst'
          rcases List.mem_or_eq_of_mem_set hst' with hst' | hst'
          · exact hexec hexr st' hst'
          · subst hst'
            rfl
      · rw [if_neg hg]
        exact ⟨hst, hexec⟩
  | execReturn =>
    have hstep : pstep pi .execReturn =
        if pi.stages.all (fun st => st.closes == 1) then
          PipeState.mk pi.stages true
        else pi := by
      simp only [pstep]
    rw [hstep]
    by_cases hg : pi.stages.all (fun st => st.closes == 1)
    · rw [if_pos hg]
      refine ⟨hst, ?_⟩
      intro _ st' hst'
      have := (List.all_eq_true.mp hg) st' hst'
      simpa using this
    · rw [if_neg hg]
      exact ⟨hst, hexec⟩

theorem pipeInv_run (sched : List PStep) (pi : PipeState) (h : PipeInv pi) :
    PipeInv (pipeRun pi sched) := by
  induction sched generalizing pi with
  | nil => exact h
  | cons a rest ih => exact ih _ (pipeInv_step pi a h)

/-- C6: stage-completion signaling.  In every state reachable under any
interleaving of any pipeline run: each stage's outbound stream has been
closed at most once, a closed stream implies the stage body already
returned, a returned stage body implies every task it spawned has no unsent
result (so downstream can never observe end-of-data while an upstream task
still has an unsent result), and the executor has returned only if every
stage — the final one included — has closed, hence finished. -/
theorem stage_completion_signaling (counts : List (List Nat)) (sched : List PStep) :
    (∀ st ∈ (pipeRun (pipeInit counts) sched).stages,
      st.closes ≤ 1 ∧ (st.closes = 1 → st.ret = true) ∧
      (st.ret = true → ∀ t ∈ st.tasks, t = 0)) ∧
    ((pipeRun (pipeInit counts) sched).execReturned = true →
      ∀ st ∈ (pipeRun (pipeInit counts) sched).stages,
        st.closes = 1 ∧ st.ret = true ∧ ∀ t ∈ st.tasks, t = 0) := by
  obtain ⟨hst, hexec⟩ := pipeInv_run sched (pipeInit counts) (pipeInv_init counts)
  refine ⟨hst, ?_⟩
  intro hret st hmem
  have hc := hexec hret st hmem
  have hr := (hst st hmem).2.1 hc
  exact ⟨hc, hr, (hst st hmem).2.2 hr⟩

/-! ## C9: shared result channels in `SingleHash` (part_000 lines 49–81)

`SingleHash` creates `crc32Receiver` and `crc32WithMd5Receiver` once,
outside the per-item loop, and every per-item task reads from these shared
unbuffered channels values written by `getAlgo` goroutines spawned for every
item.  With the two inputs `0` and `1` in flight there are four senders —
`getAlgo(crc32Receiver, "0")`, `getAlgo(crc32WithMd5Receiver, md5("0"))`,
`getAlgo(crc32Receiver, "1")`, `getAlgo(crc32WithMd5Receiver, md5("1"))` —
and two receiving tasks, each of which reads `crc32Receiver` first and
`crc32WithMd5Receiver` second.  The machine below performs channel
rendezvous steps chosen by a schedule; values are tracked by the item
(origin) they were computed for. -/

/-- The four `getAlgo` senders spawned for inputs `[0, 1]`: channel
(`false` = `crc32Receiver`, `true` = `crc32WithMd5Receiver`) and the item
the sent value was computed for. -/
def senderChanOrigin : Nat → Option (Bool × Nat)
  | 0 => some (false, 0)
  | 1 => some (true, 0)
  | 2 => some (false, 1)
  | 3 => some (true, 1)
  | _ => none

/-- State of the `SingleHash` rendezvous machine: which senders have
delivered, and for each per-item task the origins of the values it has
received so far (first from `crc32Receiver`, then from
`crc32WithMd5Receiver`). -/
structure SHState where
  sent : List Bool
  recvd : List (List Nat)
deriving DecidableEq, Repr

/-- One rendezvous: sender `e.1` delivers to task `e.2`, allowed only when
the sender has not yet delivered and its channel is the one the task reads
next. -/
def shStep (st : SHState) (e : Nat × Nat) : SHState :=
  match senderChanOrigin e.1, st.sent[e.1]?, st.recvd[e.2]? with
  | some p, some false, some got =>
    if (got.length == 0 && p.1 == false) || (got.length == 1 && p.1 == true) then
      ⟨st.sent.set e.1 true, st.recvd.set e.2 (got ++ [p.2])⟩
    else st
  | _, _, _ => st

/-- Initial state: no sender has delivered, no task has received. -/
def shInit : SHState := ⟨[false, false, false, false], [[], []]⟩

/-- Run the rendezvous machine under a schedule of sender/receiver pairs. -/
def shRun (sched : List (Nat × Nat)) : SHState := sched.foldl shStep shInit

/-- The string a `SingleHash` task builds from its two received values,
given the opaque `DataSignerCrc32` (`c`) and `DataSignerMd5` (`m`):
`crc32-value + "~" + crc32(md5)-value`, where the received values are
determined by the origins recorded by the machine. -/
def singleHashInterp (c m : String → String) (got : List Nat) : String :=
  c (toString (got.getD 0 0)) ++ "~" ++ c (m (toString (got.getD 1 0)))

/-- C9: the shared result channels of `SingleHash` make the per-item result
schedule-dependent.  One valid schedule delivers to each task the values
computed for its own item, but another valid schedule delivers to the task
of item 1 the `crc32` value computed for item 0 from the shared
`crc32Receiver` (and vice versa), so the two schedules give the item-1 task
different results whenever `crc32("0") ≠ crc32("1")` — witnessed at one
concrete instantiation of the hash functions. -/
theorem singleHash_shared_channel_race :
    (shRun [(0, 0), (1, 0), (2, 1), (3, 1)]).recvd = [[0, 0], [1, 1]] ∧
    (shRun [(0, 1), (3, 1), (2, 0), (1, 0)]).recvd = [[1, 0], [0, 1]] ∧
    singleHashInterp (fun s => "c" ++ s) (fun s => "m" ++ s) [1, 1] ≠
      singleHashInterp (fun s => "c" ++ s) (fun s => "m" ++ s) [0, 1] := by
  refine ⟨by decide, by decide, ?_⟩
  decide

/-! ## C10: the source stage's inbound channel

In `RunPipeline` (spammer.go lines 10–24) and `ExecutePipeline` (part_000
lines 33–47) the executor creates `in := make(chan interface{})` before the
loop and then wires stage `i` to read channel `i` and write channel `i + 1`,
with the wrapper's deferred `close` applying to channel `i + 1` only.  So
channel `0` has no writer and no closer.  The machine below runs the wired
goroutines under arbitrary schedules with rendezvous semantics: a receive
fires only against a matching sender or on a closed channel. -/

/-- Channel operations of a pipeline goroutine. -/
inductive COp
  | send (ch : Nat)
  | recv (ch : Nat)
  | close (ch : Nat)
deriving DecidableEq, Repr

/-- State of the wired pipeline: each goroutine's remaining operations and
the set of closed channels. -/
structure CState where
  progs : List (List COp)
  closedChans : List Nat
deriving DecidableEq, Repr

/-- Scheduler actions: a send/receive rendezvous between two goroutines, a
goroutine executing its `close`, or a receive completing on an already
closed channel. -/
inductive CStep
  | rendezvous (snd rcv : Nat)
  | doClose (g : Nat)
  | recvClosed (g : Nat)
deriving DecidableEq, Repr

def cstep (st : CState) (a : CStep) : CState :=
  match a with
  | .rendezvous s r =>
    match st.progs[s]?, st.progs[r]? with
    | some (COp.send ch :: restS), some (COp.recv ch2 :: restR) =>
      if ch == ch2 && s != r then
        ⟨(st.progs.set s restS).set r restR, st.closedChans⟩
      else st
    | _, _ => st
  | .doClose g =>
    match st.progs[g]? with
    | some (COp.close ch :: rest) => ⟨st.progs.set g rest, ch :: st.closedChans⟩
    | _ => st
  | .recvClosed g =>
    match st.progs[g]? with
    | some (COp.recv ch :: rest) =>
      if ch ∈ st.closedChans then ⟨st.progs.set g rest, st.closedChans⟩ else st
    | _ => st

def cRun (st : CState) (sched : List CStep) : CState := sched.foldl cstep st

/-- Invariant: goroutine 0 still has its entire program, no goroutine has a
pending `send 0` or `close 0`, and channel 0 is not closed. -/
def Chan0Inv (orig : List COp) (st : CState) : Prop :=
  st.progs[0]? = some orig ∧
  (∀ p ∈ st.progs, COp.send 0 ∉ p ∧ COp.close 0 ∉ p) ∧
  0 ∉ st.closedChans

theorem chan0Inv_step (orig : List COp) (rest0 : List COp)
    (horig : orig = COp.recv 0 :: rest0)
    (st : CState) (a : CStep) (h : Chan0Inv orig st) :
    Chan0Inv orig (cstep st a) := by
  obtain ⟨h0, hno, hcl⟩ := h
  cases a with
  | rendezvous s r =>
    cases hs : st.progs[s]? with
    | none =>
      have hstep : cstep st (.rendezvous s r) = st := by
        simp only [cstep]; rw [hs]
      rw [hstep]; exact ⟨h0, hno, hcl⟩
    | some ps =>
      cases hr : st.progs[r]? with
      | none =>
        have hstep : cstep st (.rendezvous s r) = st := by
          simp only [cstep]; rw [hs, hr]
          cases ps with
          | nil => rfl
          | cons op rest => cases op <;> rfl
        rw [hstep]; exact ⟨h0, hno, hcl⟩
      | some pr =>
        match ps, pr with
        | [], _ =>
          have hstep : cstep st (.rendezvous s r) = st := by
            simp only [cstep]; rw [hs, hr]
          rw [hstep]; exact ⟨h0, hno, hcl⟩
        | COp.recv ch :: restS, _ =>
          have hstep : cstep st (.rendezvous s r) = st := by
            simp only [cstep]; rw [hs, hr]
          rw [hstep]; exact ⟨h0, hno, hcl⟩
        | COp.close ch :: restS, _ =>
          have hstep : cstep st (.rendezvous s r) = st := by
            simp only [cstep]; rw [hs, hr]
          rw [hstep]; exact ⟨h0, hno, hcl⟩
        | COp.send ch :: restS, [] =>
          have hstep : cstep st (.rendezvous s r) = st := by
            simp only [cstep]; rw [hs, hr]
          rw [hstep]; exact ⟨h0, hno, hcl⟩
        | COp.send ch :: restS, COp.send ch2 :: restR =>
          have hstep : cstep st (.rendezvous s r) = st := by
            simp only [cstep]; rw [hs, hr]
          rw [hstep]; exact ⟨h0, hno, hcl⟩
        | COp.send ch :: restS, COp.close ch2 :: restR =>
          have hstep : cstep st (.rendezvous s r) = st := by
            simp only [cstep]; rw [hs, hr]
          rw [hstep]; exact ⟨h0, hno, hcl⟩
        | COp.send ch :: restS, COp.recv ch2 :: restR =>
          have hsmem : (COp.send ch :: restS) ∈ st.progs := by
            obtain ⟨hlt, hgrab⟩ := List.getElem?_eq_some.mp hs
            exact hgrab ▸ List.getElem_mem hlt
          have hrmem : (COp.recv ch2 :: restR) ∈ st.progs := by
            obtain ⟨hlt, hgrab⟩ := List.getElem?_eq_some.mp hr
            exact hgrab ▸ List.getElem_mem hlt
          have hchne : ch ≠ 0 := by
            intro hc
            exact (hno _ hsmem).1 (hc ▸ List.mem_cons_self _ _)
          have hstep : cstep st (.rendezvous s r) =
              if ch == ch2 && s != r then
                ⟨(st.progs.set s restS).set r restR, st.closedChans⟩
              else st := by
            simp only [cstep]; rw [hs, hr]
          rw [hstep]
          by_cases hg : ch == ch2 && s != r
          · rw [if_pos hg]
            have hcheq : ch = ch2 := by
              have := Bool.and_elim_left hg
              simpa using this
            have hsr : s ≠ r := by
              have := Bool.and_elim_right hg
              simpa using this
            have hr0 : r ≠ 0 := by
              intro hre
              subst hre
              rw [h0, horig] at hr
              have hinj := Option.some_inj.mp hr
              have hhead : COp.recv 0 = COp.recv ch2 := by injection hinj
              have hch : (0 : Nat) = ch2 := by injection hhead
              exact hchne (hcheq.trans hch.symm)
            have hs0 : s ≠ 0 := by
              intro hse
              subst hse
              rw [h0, horig] at hs
              have hinj := Option.some_inj.mp hs
              have hhead : COp.recv 0 = COp.send ch := by injection hinj
              exact COp.noConfusion hhead
            refine ⟨?_, ?_, hcl⟩
            · rw [List.getElem?_set_ne (by omega), List.getElem?_set_ne (by omega)]
              exact h0
            · intro p hp
              rcases List.mem_or_eq_of_mem_set hp with hp | hp
              · rcases List.mem_or_eq_of_mem_set hp with hp | hp
                · exact hno p hp
                · subst hp
                  have := hno _ hsmem
                  exact ⟨fun hc => this.1 (List.mem_cons_of_mem _ hc),
                    fun hc => this.2 (List.mem_cons_of_mem _ hc)⟩
              · subst hp
                have := hno _ hrmem
                exact ⟨fun hc => this.1 (List.mem_cons_of_mem _ hc),
                  fun hc => this.2 (List.mem_cons_of_mem _ hc)⟩
          · rw [if_neg hg]
            exact ⟨h0, hno, hcl⟩
  | doClose g =>
    cases hg : st.progs[g]? with
    | none =>
      have hstep : cstep st (.doClose g) = st := by
        simp only [cstep]; rw [hg]
      rw [hstep]; exact ⟨h0, hno, hcl⟩
    | some pg =>
      match pg with
      | [] =>
        have hstep : cstep st (.doClose g) = st := by
          simp only [cstep]; rw [hg]
        rw [hstep]; exact ⟨h0, hno, hcl⟩
      | COp.send ch :: rest =>
        have hstep : cstep st (.doClose g) = st := by
          simp only [cstep]; rw [hg]
        rw [hstep]; exact ⟨h0, hno, hcl⟩
      | COp.recv ch :: rest =>
        have hstep : cstep st (.doClose g) = st := by
          simp only [cstep]; rw [hg]
        rw [hstep]; exact ⟨h0, hno, hcl⟩
      | COp.close ch :: rest =>
        have hgmem : (COp.close ch :: rest) ∈ st.progs := by
          obtain ⟨hlt, hgrab⟩ := List.getElem?_eq_some.mp hg
          exact hgrab ▸ List.getElem_mem hlt
        have hchne : ch ≠ 0 := by
          intro hc
          exact (hno _ hgmem).2 (hc ▸ List.mem_cons_self _ _)
        have hg0 : g ≠ 0 := by
          intro hge
          subst hge
          rw [h0, horig] at hg
          have hinj := Option.some_inj.mp hg
          have hhead : COp.recv 0 = COp.close ch := by injection hinj
          exact COp.noConfusion hhead
        have hstep : cstep st (.doClose g) =
            ⟨st.progs.set g rest, ch :: st.closedChans⟩ := by
          simp only [cstep]; rw [hg]
        rw [hstep]
        refine ⟨?_, ?_, ?_⟩
        · rw [List.getElem?_set_ne (by omega)]
          exact h0
        · intro p hp
          rcases List.mem_or_eq_of_mem_set hp with hp | hp
          · exact hno p hp
          · subst hp
            have := hno _ hgmem
            exact ⟨fun hc => this.1 (List.mem_cons_of_mem _ hc),
              fun hc => this.2 (List.mem_cons_of_mem _ hc)⟩
        · intro hc
          rcases List.mem_cons.mp hc with hc | hc
          · exact hchne hc.symm
          · exact hcl hc
  | recvClosed g =>
    cases hg : st.progs[g]? with
    | none =>
      have hstep : cstep st (.recvClosed g) = st := by
        simp only [cstep]; rw [hg]
      rw [hstep]; exact ⟨h0, hno, hcl⟩
    | some pg =>
      match pg with
      | [] =>
        have hstep : cstep st (.recvClosed g) = st := by
          simp only [cstep]; rw [hg]
        rw [hstep]; exact ⟨h0, hno, hcl⟩
      | COp.send ch :: rest =>
        have hstep : cstep st (.recvClosed g) = st := by
          simp only [cstep]; rw [hg]
        rw [hstep]; exact ⟨h0, hno, hcl⟩
      | COp.close ch :: rest =>
        have hstep : cstep st (.recvClosed g) = st := by
          simp only [cstep]; rw [hg]
        rw [hstep]; exact ⟨h0, hno, hcl⟩
      | COp.recv ch :: rest =>
        have hstep : cstep st (.recvClosed g) =
            if ch ∈ st.closedChans then ⟨st.progs.set g rest, st.closedChans⟩
            else st := by
          simp only [cstep]; rw [hg]
        rw [hstep]
        by_cases hmemc : ch ∈ st.closedChans
        · rw [if_pos hmemc]
          have hgmem : (COp.recv ch :: rest) ∈ st.progs := by
            obtain ⟨hlt, hgrab⟩ := List.getElem?_eq_some.mp hg
            exact hgrab ▸ List.getElem_mem hlt
          have hg0 : g ≠ 0 := by
            intro hge
            subst hge
            rw [h0, horig] at hg
            have hinj := Option.some_inj.mp hg
            have hhead : COp.recv 0 = COp.recv ch := by injection hinj
            have hch : (0 : Nat) = ch := by injection hhead
            exact hcl (hch ▸ hmemc)
          refine ⟨?_, ?_, hcl⟩
          · rw [List.getElem?_set_ne (by omega)]
            exact h0
          · intro p hp
            rcases List.mem_or_eq_of_mem_set hp with hp | hp
            · exact hno p hp
            · subst hp
              have := hno _ hgmem
              exact ⟨fun hc => this.1 (List.mem_cons_of_mem _ hc),
                fun hc => this.2 (List.mem_cons_of_mem _ hc)⟩
        · rw [if_neg hmemc]
          exact ⟨h0, hno, hcl⟩

theorem chan0Inv_run (orig rest0 : List COp) (horig : orig = COp.recv 0 :: rest0)
    (sched : List CStep) (st : CState) (h : Chan0Inv orig st) :
    Chan0Inv orig (cRun st sched) := by
  induction sched generalizing st with
  | nil => exact h
  | cons a rest ih => exact ih _ (chan0Inv_step orig rest0 horig st a h)

/-- The wrapper the executor runs for stage `i`: the stage body followed by
the deferred `close` of the stage's outbound channel `i + 1`. -/
def wrapProg (i : Nat) (body : List COp) : List COp := body ++ [COp.close (i + 1)]

/-- A stage body only uses its own wired channels: it receives from its
inbound channel `i` and sends to its outbound channel `i + 1`. -/
def bodyWellFormed (i : Nat) (body : List COp) : Prop :=
  ∀ op ∈ body, op = COp.recv i ∨ op = COp.send (i + 1)

instance (i : Nat) (body : List COp) : Decidable (bodyWellFormed i body) :=
  inferInstanceAs (Decidable (∀ op ∈ body, _ ∨ _))

/-- The goroutines started by `RunPipeline`/`ExecutePipeline`: stage `i`
reads channel `i`, writes channel `i + 1`, and its wrapper closes channel
`i + 1`. -/
def execProgs (m : Nat) (bodies : Nat → List COp) : List (List COp) :=
  (List.range m).map (fun i => wrapProg i (bodies i))

/-- The source job of part_000's pipeline (lines 14–19): it sends the two
seed values to its outbound channel (channel 1) and never touches its
inbound channel. -/
def sourceJobProg : List COp := [COp.send 1, COp.send 1]

/-- C10: the channel wired as the first stage's inbound stream is never
written and never closed by any goroutine of the executor run, so a first
stage that begins by draining its inbound stream never completes even its
first receive under any schedule — it blocks forever; and the pipeline's
actual source job ignores its inbound channel entirely. -/
theorem source_inbound_channel_dead (m : Nat) (bodies : Nat → List COp)
    (rest0 : List COp) (hm : 0 < m) (h0 : bodies 0 = COp.recv 0 :: rest0)
    (hwf : ∀ i, i < m → bodyWellFormed i (bodies i)) (sched : List CStep) :
    (cRun ⟨execProgs m bodies, []⟩ sched).progs[0]? =
      some (COp.recv 0 :: (rest0 ++ [COp.close 1])) ∧
    0 ∉ (cRun ⟨execProgs m bodies, []⟩ sched).closedChans ∧
    (∀ op ∈ sourceJobProg, op ≠ COp.recv 0) := by
  have hinit : Chan0Inv (COp.recv 0 :: (rest0 ++ [COp.close 1]))
      ⟨execProgs m bodies, []⟩ := by
    refine ⟨?_, ?_, by simp⟩
    · show (execProgs m bodies)[0]? = _
      unfold execProgs
      rw [List.getElem?_map, List.getElem?_range hm]
      simp [wrapProg, h0]
    · intro p hp
      show COp.send 0 ∉ p ∧ COp.close 0 ∉ p
      unfold execProgs at hp
      obtain ⟨i, hi, hpi⟩ := List.mem_map.mp hp
      rw [List.mem_range] at hi
      subst hpi
      unfold wrapProg
      constructor
      · intro hc
        rcases List.mem_append.mp hc with hc | hc
        · rcases hwf i hi _ hc with hc2 | hc2 <;> simp at hc2
        · simp at hc
      · intro hc
        rcases List.mem_append.mp hc with hc | hc
        · rcases hwf i hi _ hc with hc2 | hc2 <;> simp at hc2
        · simp at hc
  obtain ⟨ha, _, hb⟩ := chan0Inv_run _ (rest0 ++ [COp.close 1]) rfl sched _ hinit
  exact ⟨ha, hb, by decide⟩

/-- Concrete instantiation of `source_inbound_channel_dead`: a two-stage
pipeline whose first stage ranges over its inbound channel stays stuck at
that first receive under a schedule that tries every kind of step. -/
theorem source_inbound_channel_dead_witness :
    (cRun ⟨execProgs 2 (fun i => if i = 0 then [COp.recv 0] else [COp.recv 1]), []⟩
        [.rendezvous 0 1, .doClose 0, .doClose 1, .recvClosed 0]).progs[0]? =
      some (COp.recv 0 :: ([] ++ [COp.close 1])) ∧
    0 ∉ (cRun ⟨execProgs 2 (fun i => if i = 0 then [COp.recv 0] else [COp.recv 1]), []⟩
        [.rendezvous 0 1, .doClose 0, .doClose 1, .recvClosed 0]).closedChans := by
  have h := source_inbound_channel_dead 2
    (fun i => if i = 0 then [COp.recv 0] else [COp.recv 1]) [] (by decide) (by decide)
    (by decide) [.rendezvous 0 1, .doClose 0, .doClose 1, .recvClosed 0]
  exact ⟨h.1, h.2.1⟩

/-! ## C8: output-count bound for the whole spam pipeline

The composed pipeline `SelectUsers → SelectMessages → CheckSpam →
CombineResults` over an input list of emails: dedup forwards each identity
at most once; each dispatched batch yields the message ids of a successful
`GetMessages` call and nothing on failure; `CheckSpam` drops an item when
`HasSpam` fails; the sink emits one record per surviving item in sorted
order.  `GetMessages` and `HasSpam` are external collaborators, modelled as
opaque functions; the batch-lookup contract (at most one message id per user
in the batch) enters as a hypothesis. -/

/-- The users forwarded by `SelectUsers`, in mutex order. -/
def selectUsersOut (getUser : String → User) (emails : List String) : List User :=
  ((selectUsersTrace getUser emails []).filter (fun p => p.2)).map (fun p => p.1)

/-- The message ids that reach `CheckSpam`: per dispatched batch, the result
of a successful `GetMessages` call, nothing for a failed one. -/
def spamMsgs (getUser : String → User) (gm : List User → Option (List Nat))
    (B : Nat) (emails : List String) : List Nat :=
  ((selectMessagesBatches B (selectUsersOut getUser emails) []).map
    (fun b => (gm b).getD [])).flatten

/-- The classification records that reach the sink: one per message whose
`HasSpam` call succeeded. -/
def spamDatas (getUser : String → User) (gm : List User → Option (List Nat))
    (hsp : Nat → Option Bool) (B : Nat) (emails : List String) : List MsgData :=
  (spamMsgs getUser gm B emails).filterMap
    (fun id => (hsp id).map (fun sp => MsgData.mk id sp))

/-- The strings emitted by the sink for the full pipeline run. -/
def spamPipelineOutput (getUser : String → User)
    (gm : List User → Option (List Nat)) (hsp : Nat → Option Bool)
    (B : Nat) (emails : List String) : List String :=
  combineResultsSpam (spamDatas getUser gm hsp B emails)

theorem selectUsersTrace_forwarded_le (getUser : String → User) :
    ∀ (sched : List String) (seen : List Nat),
      ((selectUsersTrace getUser sched seen).filter (fun p => p.2)).length ≤
        sched.length := by
  intro sched
  induction sched with
  | nil => intro seen; simp [selectUsersTrace]
  | cons e rest ih =>
    intro seen
    simp only [selectUsersTrace]
    by_cases h : (getUser e).ID ∈ seen
    · rw [if_pos h]
      simp only [List.filter_cons, List.length_cons]
      have := ih seen
      simp
      omega
    · rw [if_neg h]
      simp only [List.filter_cons, List.length_cons]
      have := ih ((getUser e).ID :: seen)
      simp
      omega

theorem selectUsersTrace_forwarded_lt (getUser : String → User) :
    ∀ (sched : List String) (seen : List Nat),
      (¬ (sched.map (fun e => (getUser e).ID)).Nodup ∨
        ∃ e ∈ sched, (getUser e).ID ∈ seen) →
      ((selectUsersTrace getUser sched seen).filter (fun p => p.2)).length <
        sched.length := by
  intro sched
  induction sched with
  | nil =>
    intro seen h
    rcases h with h | ⟨e, he, _⟩
    · simp at h
    · simp at he
  | cons e rest ih =>
    intro seen h
    simp only [selectUsersTrace]
    by_cases hseen : (getUser e).ID ∈ seen
    · rw [if_pos hseen]
      simp only [List.filter_cons, List.length_cons]
      have := selectUsersTrace_forwarded_le getUser rest seen
      simp
      omega
    · rw [if_neg hseen]
      simp only [List.filter_cons, List.length_cons]
      have hstrict : ((selectUsersTrace getUser rest
          ((getUser e).ID :: seen)).filter (fun p => p.2)).length < rest.length := by
        apply ih
        rcases h with h | ⟨f, hf, hfs⟩
        · rw [List.map_cons, List.nodup_cons] at h
          by_cases hdup : (getUser e).ID ∈ rest.map (fun x => (getUser x).ID)
          · obtain ⟨f, hf, hfe⟩ := List.mem_map.mp hdup
            exact Or.inr ⟨f, hf, by rw [hfe]; exact List.mem_cons_self _ _⟩
          · left
            intro hnd
            exact h ⟨hdup, hnd⟩
        · rcases List.mem_cons.mp hf with hf | hf
          · exact absurd (hf ▸ hfs) hseen
          · exact Or.inr ⟨f, hf, List.mem_cons_of_mem _ hfs⟩
      simp
      omega

theorem spamMsgs_flatten_le (gm : List User → Option (List Nat))
    (hgm : ∀ b r, gm b = some r → r.length ≤ b.length) :
    ∀ bs : List (List User),
      ((bs.map (fun b => (gm b).getD [])).flatten).length ≤ bs.flatten.length := by
  intro bs
  induction bs with
  | nil => simp
  | cons b rest ih =>
    simp only [List.map_cons, List.flatten_cons, List.length_append]
    have hb : ((gm b).getD []).length ≤ b.length := by
      cases hgb : gm b with
      | none => simp
      | some r => simpa using hgm b r hgb
    omega

theorem spamMsgs_flatten_lt (gm : List User → Option (List Nat))
    (hgm : ∀ b r, gm b = some r → r.length ≤ b.length) :
    ∀ bs : List (List User), (∃ b ∈ bs, gm b = none ∧ b ≠ []) →
      ((bs.map (fun b => (gm b).getD [])).flatten).length < bs.flatten.length := by
  intro bs
  induction bs with
  | nil => intro h; simp at h
  | cons b rest ih =>
    intro h
    simp only [List.map_cons, List.flatten_cons, List.length_append]
    rcases h with ⟨b2, hb2, hnone, hne⟩
    rcases List.mem_cons.mp hb2 with hb2 | hb2
    · subst hb2
      rw [hnone]
      have hrest := spamMsgs_flatten_le gm hgm rest
      have hbpos : 0 < b2.length := List.length_pos.mpr hne
      simp only [Option.getD_none, List.length_nil]
      omega
    · have hb : ((gm b).getD []).length ≤ b.length := by
        cases hgb : gm b with
        | none => simp
        | some r => simpa using hgm b r hgb
      have := ih ⟨b2, hb2, hnone, hne⟩
      omega

theorem filterMap_opt_lt {α β : Type} (f : α → Option β) :
    ∀ l : List α, (∃ a ∈ l, f a = none) → (l.filterMap f).length < l.length := by
  intro l
  induction l with
  | nil => intro h; simp at h
  | cons a rest ih =>
    intro h
    rcases h with ⟨a2, ha2, hnone⟩
    rcases List.mem_cons.mp ha2 with ha2 | ha2
    · subst ha2
      rw [List.filterMap_cons, hnone]
      have := List.length_filterMap_le f rest
      simp
      omega
    · rw [List.filterMap_cons]
      cases f a with
      | none =>
        have := ih ⟨a2, ha2, hnone⟩
        simp
        omega
      | some b =>
        have := ih ⟨a2, ha2, hnone⟩
        simp
        omega

/-- C8: output-count bound.  Under the batch-lookup contract (a successful
`GetMessages` yields at most one message id per user in the batch), the sink
emits at most as many records as there are source emails; strictly fewer
whenever some email's identity is a duplicate, some dispatched batch's
`GetMessages` fails, or some message's `HasSpam` fails; and the surviving
output is still emitted in the sink's sorted order. -/
theorem spamPipeline_output_bound (getUser : String → User)
    (gm : List User → Option (List Nat)) (hsp : Nat → Option Bool)
    (B : Nat) (emails : List String)
    (hgm : ∀ b r, gm b = some r → r.length ≤ b.length) :
    (spamPipelineOutput getUser gm hsp B emails).length ≤ emails.length ∧
    ((¬ (emails.map (fun e => (getUser e).ID)).Nodup ∨
      (∃ b ∈ selectMessagesBatches B (selectUsersOut getUser emails) [], gm b = none) ∨
      (∃ m ∈ spamMsgs getUser gm B emails, hsp m = none)) →
      (spamPipelineOutput getUser gm hsp B emails).length < emails.length) ∧
    List.Sorted msgLe (combineResultsSpamOrder (spamDatas getUser gm hsp B emails)) := by
  have husers_le : (selectUsersOut getUser emails).length ≤ emails.length := by
    unfold selectUsersOut
    rw [List.length_map]
    exact selectUsersTrace_forwarded_le getUser emails []
  have hflat : (selectMessagesBatches B (selectUsersOut getUser emails) []).flatten =
      selectUsersOut getUser emails := by
    simpa using selectMessagesBatches_join B (selectUsersOut getUser emails) []
  have hmsgs_le : (spamMsgs getUser gm B emails).length ≤
      (selectUsersOut getUser emails).length := by
    unfold spamMsgs
    calc ((((selectMessagesBatches B (selectUsersOut getUser emails) []).map
            (fun b => (gm b).getD []))).flatten).length
        ≤ ((selectMessagesBatches B (selectUsersOut getUser emails) []).flatten).length :=
          spamMsgs_flatten_le gm hgm _
      _ = (selectUsersOut getUser emails).length := by rw [hflat]
  have hdatas_le : (spamDatas getUser gm hsp B emails).length ≤
      (spamMsgs getUser gm B emails).length := by
    unfold spamDatas
    exact List.length_filterMap_le _ _
  have hsink : (spamPipelineOutput getUser gm hsp B emails).length =
      (spamDatas getUser gm hsp B emails).length := by
    unfold spamPipelineOutput combineResultsSpam
    rw [List.length_map]
    exact (List.perm_insertionSort msgLe _).length_eq
  refine ⟨by omega, ?_, List.sorted_insertionSort msgLe _⟩
  intro hev
  rcases hev with hdup | hbatch | hspam
  · have husers_lt : (selectUsersOut getUser emails).length < emails.length := by
      unfold selectUsersOut
      rw [List.length_map]
      exact selectUsersTrace_forwarded_lt getUser emails [] (Or.inl hdup)
    omega
  · have hmsgs_lt : (spamMsgs getUser gm B emails).length <
        (selectUsersOut getUser emails).length := by
      unfold spamMsgs
      have hne : ∀ b ∈ selectMessagesBatches B (selectUsersOut getUser emails) [],
          b ≠ [] := by
        intro b hb
        obtain ⟨b2, hb2, hnone⟩ := hbatch
        clear hnone hb2 b2
        revert hb
        have : ∀ (l buf : List User), ∀ b ∈ selectMessagesBatches B l buf, b ≠ [] := by
          intro l
          induction l with
          | nil =>
            intro buf b hb
            by_cases hl : buf.length > 0
            · simp only [selectMessagesBatches, hl, if_true] at hb
              rcases List.mem_singleton.mp hb with rfl
              intro hcon
              rw [hcon] at hl
              simp at hl
            · simp [selectMessagesBatches, hl] at hb
          | cons u rest ih =>
            intro buf b hb
            simp only [selectMessagesBatches] at hb
            by_cases hfull : (buf ++ [u]).length = B
            · rw [if_pos hfull] at hb
              rcases List.mem_cons.mp hb with rfl | hb
              · simp
              · exact ih [] b hb
            · rw [if_neg hfull] at hb
              exact ih (buf ++ [u]) b hb
        exact this _ _ b
      obtain ⟨b2, hb2, hnone⟩ := hbatch
      calc ((((selectMessagesBatches B (selectUsersOut getUser emails) []).map
              (fun b => (gm b).getD []))).flatten).length
          < ((selectMessagesBatches B (selectUsersOut getUser emails) []).flatten).length :=
            spamMsgs_flatten_lt gm hgm _ ⟨b2, hb2, hnone, hne b2 hb2⟩
        _ = (selectUsersOut getUser emails).length := by rw [hflat]
    omega
  · have hdatas_lt : (spamDatas getUser gm hsp B emails).length <
        (spamMsgs getUser gm B emails).length := by
      unfold spamDatas
      apply filterMap_opt_lt
      obtain ⟨m, hm, hnone⟩ := hspam
      exact ⟨m, hm, by rw [hnone]; rfl⟩
    omega

/-- Concrete instantiation of `spamPipeline_output_bound`: two emails that
resolve to the same identity give a single-record output, strictly less
than the two source items. -/
theorem spamPipeline_output_bound_witness :
    (spamPipelineOutput (fun e => ⟨e.length, e⟩)
        (fun b => some (b.map (fun u => u.ID))) (fun _ => some true) 2
        ["a", "b"]).length ≤ 2 ∧
    (spamPipelineOutput (fun e => ⟨e.length, e⟩)
        (fun b => some (b.map (fun u => u.ID))) (fun _ => some true) 2
        ["a", "b"]).length < 2 := by
  have hgm : ∀ (b : List User) (r : List Nat),
      (fun b => some (b.map (fun u => u.ID))) b = some r → r.length ≤ b.length := by
    intro b r h
    rw [← Option.some_inj.mp h]
    simp
  have hmain := spamPipeline_output_bound (fun e => ⟨e.length, e⟩)
    (fun b => some (b.map (fun u => u.ID))) (fun _ => some true) 2 ["a", "b"] hgm
  refine ⟨by simpa using hmain.1, ?_⟩
  have := hmain.2.1 (Or.inl (by decide))
  simpa using this

end Vasserman
